import Mathlib

/-!
Verification development for the `halloc` memory arena.

The Rust sources are shallowly embedded:

* `Layout` mirrors `std::alloc::Layout` as a plain (size, align) pair of
  naturals.
* `Heap` mirrors the allocation table of `src/heap.rs`: a flat ordered list
  of `(address, layout)` records (`ptrs: Vec<(NonNull<u8>, Layout)>`).
  Raw addresses are modelled as naturals; the system allocator is modelled
  by the caller supplying a fresh address and the (arbitrary) junk contents
  the allocator hands back.
* `Store` models the address space itself: an association list from
  addresses to byte contents.  The table lock only ever protects the
  `Heap` ledger, never the stored bytes, so the two are separate states.
* `World` (further down) models one allocation together with the family of
  `HeapMutator` clones sharing its `Arc`: the `Arc` strong count, the list
  of live handles with their `deallocated` flags, and observable counters
  for `drop_in_place` calls and physical deallocations.
-/

namespace Halloc

/-- `std::alloc::Layout`: a size / alignment descriptor. -/
structure Layout where
  size : Nat
  align : Nat
deriving DecidableEq, Repr

/-- The allocation table of `heap.rs`:
`pub(crate) ptrs: Vec<(NonNull<u8>, Layout)>`. -/
structure Heap where
  ptrs : List (Nat × Layout)
deriving DecidableEq, Repr

/-- `Heap::new(initial_size)`: `Vec::with_capacity` only pre-sizes the
vector, so the table starts empty whatever the hint. -/
def Heap.new (_initialSize : Nat) : Heap := ⟨[]⟩

/-- The ledger part of `Heap::alloc`: after the system allocator returns a
(non-null) pointer, `self.ptrs.push((nn_ptr, layout))` records it.  The
fresh address chosen by the system allocator is a parameter. -/
def Heap.allocRecord (h : Heap) (addr : Nat) (layout : Layout) : Heap :=
  ⟨h.ptrs ++ [(addr, layout)]⟩

/-- `Heap::dealloc(ptr, layout)`: the raw storage is released and
`self.ptrs.retain(|(p, _)| *p != ptr)` drops every record whose address
equals `ptr`.  The layout argument is passed to the system allocator only
and does not influence the ledger update. -/
def Heap.dealloc (h : Heap) (addr : Nat) (_layout : Layout) : Heap :=
  ⟨h.ptrs.filter (fun q => decide (q.1 ≠ addr))⟩

/-- `Heap::size()`: sum of the layout sizes of all recorded allocations. -/
def Heap.size (h : Heap) : Nat :=
  (h.ptrs.map (fun q => q.2.size)).sum

/-- `Heap::count()`: `self.ptrs.len()`. -/
def Heap.count (h : Heap) : Nat := h.ptrs.length

/-- Allocating a batch of records one after the other (each `alloc` call
pushes one record). -/
def Heap.allocMany (h : Heap) (xs : List (Nat × Layout)) : Heap :=
  xs.foldl (fun acc x => acc.allocRecord x.1 x.2) h

/-- The address space: contents of each allocation, keyed by address.
Bytes are modelled as naturals. -/
structure Store where
  mem : List (Nat × List Nat)
deriving DecidableEq, Repr

/-- Overwrite (shadow) the contents stored at `addr`. -/
def Store.write (s : Store) (addr : Nat) (bytes : List Nat) : Store :=
  ⟨(addr, bytes) :: s.mem⟩

/-- Read the current contents at `addr`. -/
def Store.lookup (s : Store) (addr : Nat) : Option (List Nat) :=
  List.lookup addr s.mem

/-- `ptr.write_bytes(0, size)`: the first `size` bytes at `addr` become 0. -/
def Store.writeBytesZero (s : Store) (addr : Nat) (size : Nat) : Store :=
  s.write addr (List.replicate size 0)

/-- `heap.rs` `Heap::alloc(layout)`: obtains fresh storage from the system
allocator (contents arbitrary: the `junk` parameter) and records the
pointer.  The allocated memory is **not** zero-initialized. -/
def Heap.allocRaw (h : Heap) (s : Store) (addr : Nat) (layout : Layout)
    (junk : List Nat) : Heap × Store :=
  (h.allocRecord addr layout, s.write addr junk)

/-- `heap.rs` `Heap::alloc_zeroed(layout)`: calls `alloc` and then
`ptr.write_bytes(0, layout.size())`. -/
def Heap.allocZeroed (h : Heap) (s : Store) (addr : Nat) (layout : Layout)
    (junk : List Nat) : Heap × Store :=
  let p := h.allocRaw s addr layout junk
  (p.1, p.2.writeBytesZero addr layout.size)

/-- `lib.rs` `Heap::alloc(layout)`: the arena-facade era table allocator
zero-initializes right after the raw allocation
(`nn_ptr.as_ptr().write_bytes(0, layout.size())`) before recording and
returning the pointer. -/
def Heap.allocLib (h : Heap) (s : Store) (addr : Nat) (layout : Layout)
    (junk : List Nat) : Heap × Store :=
  let p := h.allocRaw s addr layout junk
  (p.1, p.2.writeBytesZero addr layout.size)

/-- `lib.rs` `Memory::alloc(value)`: locks the table, reserves storage via
the zero-filling table allocator, then `write(ptr.as_ptr(), value)` moves
the caller's value into it. -/
def Memory.alloc (h : Heap) (s : Store) (addr : Nat) (layout : Layout)
    (junk : List Nat) (valueBytes : List Nat) : Heap × Store :=
  let p := h.allocLib s addr layout junk
  (p.1, p.2.write addr valueBytes)

/-- One live `HeapMutator` clone.  Its only own state beyond the shared
`Arc<NonNull<T>>` and the heap back-reference is the has-been-freed flag
`deallocated: bool`. -/
structure Handle where
  deallocated : Bool
deriving DecidableEq, Repr

/-- The family of `HeapMutator` clones sharing one `Arc<NonNull<T>>`:
`strong` is `Arc::strong_count`, `handles` lists the live clones (each
carrying its own `deallocated` flag), `addr` is the shared pointee
address.  The code never creates `Weak` references, so the weak count is
identically zero and is not modelled. -/
structure Family where
  strong : Nat
  handles : List Handle
  addr : Nat
deriving DecidableEq, Repr

/-- `HeapMutator::new_unchecked(ptr, heap)`: wraps the pointer in a fresh
counter (`Arc::new(ptr)`) with the flag cleared, so the produced handle is
the single member of a brand-new family. -/
def Family.newUnchecked (addr : Nat) : Family :=
  ⟨1, [⟨false⟩], addr⟩

/-- The full state of one allocation's lifetime: the table, the handle
family, the static layout of `T` (`Layout::new::<T>()`), and two
observable counters — how many times `drop_in_place` ran on the value and
how many times the backing storage was physically deallocated. -/
structure World where
  heap : Heap
  fam : Family
  layoutT : Layout
  destructorRuns : Nat
  physDeallocs : Nat
deriving DecidableEq, Repr

/-- `HeapMutator::ref_count()`: `Arc::strong_count(&self.ptr)`. -/
def World.refCount (w : World) : Nat := w.fam.strong

/-- `HeapMutator::can_dealloc()`: `self.ref_count() < 2`. -/
def World.canDealloc (w : World) : Bool := decide (w.refCount < 2)

/-- `HeapMutator::get_mut()`: `Arc::get_mut(&mut self.ptr)` yields a
mutable reference only when the `Arc` is unique (strong count 1, and no
weak references, which this code never creates); otherwise
`.expect("Mutable reference get failed")` panics, modelled as `none`.
Nothing is written either way, so the state is returned unchanged. -/
def World.getMut (w : World) : World × Option Nat :=
  if w.fam.strong = 1 then (w, some w.fam.addr) else (w, none)

/-- `HeapMutator::dealloc_internal` for the handle at index `i`, with
`lockOk` telling whether `self.heap.lock()` succeeds (false = poisoned).
In source order: return `false` if the flag is already set; return `false`
if `!self.can_dealloc()`; on lock failure log and return `false`;
otherwise `drop_in_place` the value, `heap.dealloc(ptr, Layout::new::<T>())`
the storage, set the flag, and return `true`. -/
def World.deallocInternal (w : World) (i : Nat) (lockOk : Bool) :
    World × Bool :=
  match w.fam.handles[i]? with
  | none => (w, false)
  | some h =>
    if h.deallocated then (w, false)
    else if ¬ w.canDealloc then (w, false)
    else if ¬ lockOk then (w, false)
    else
      ({ w with
          heap := w.heap.dealloc w.fam.addr w.layoutT
          fam := { w.fam with handles := w.fam.handles.set i ⟨true⟩ }
          destructorRuns := w.destructorRuns + 1
          physDeallocs := w.physDeallocs + 1 }, true)

/-- `Drop for HeapMutator`: runs `dealloc_internal`, after which the
mutator itself goes away — its `Arc` clone is dropped, decrementing the
strong count, and the handle leaves the live list. -/
def World.dropHandle (w : World) (i : Nat) (lockOk : Bool) : World :=
  let w1 := (w.deallocInternal i lockOk).1
  if i < w1.fam.handles.length then
    { w1 with
        fam := { w1.fam with
          strong := w1.fam.strong - 1
          handles := w1.fam.handles.eraseIdx i } }
  else w1

/-- `HeapMutator::dealloc(mut self)`: calls `dealloc_internal` and returns
its result; `self` is consumed, so its `Drop` (a second
`dealloc_internal`, then the `Arc` decrement) runs on the way out. -/
def World.deallocExplicit (w : World) (i : Nat) (lockOk : Bool) :
    World × Bool :=
  let p := w.deallocInternal i lockOk
  (p.1.dropHandle i lockOk, p.2)

/-- `Clone for HeapMutator`: `Arc::clone` increments the strong count and
the new mutator starts with `deallocated: false`.  Only a live handle can
be cloned. -/
def World.cloneHandle (w : World) (i : Nat) : World :=
  if i < w.fam.handles.length then
    { w with
        fam := { w.fam with
          strong := w.fam.strong + 1
          handles := w.fam.handles ++ [⟨false⟩] } }
  else w

/-- The state right after `Memory::alloc`: one table record, one live
handle, strong count 1, flag clear, counters zero. -/
def World.init (addr : Nat) (l : Layout) : World :=
  { heap := ⟨[(addr, l)]⟩
    fam := ⟨1, [⟨false⟩], addr⟩
    layoutT := l
    destructorRuns := 0
    physDeallocs := 0 }

/-- A single-allocation state whose one live handle is the sole reference:
one table record, strong count 1, flag clear, arbitrary counter values. -/
def soleWorld (addr : Nat) (lT : Layout) (dr pd : Nat) : World :=
  { heap := ⟨[(addr, lT)]⟩
    fam := ⟨1, [⟨false⟩], addr⟩
    layoutT := lT
    destructorRuns := dr
    physDeallocs := pd }

/-- The operations a caller can perform on the handle family. -/
inductive Op where
  | clone (i : Nat) : Op
  | dealloc (i : Nat) (lockOk : Bool) : Op
  | drop (i : Nat) (lockOk : Bool) : Op
deriving DecidableEq, Repr

/-- Whether the operation's heap-lock acquisition (if any) succeeds. -/
def Op.lockOk : Op → Bool
  | .clone _ => true
  | .dealloc _ b => b
  | .drop _ b => b

/-- One step of the handle-family state machine. -/
def World.step (w : World) : Op → World
  | .clone i => w.cloneHandle i
  | .dealloc i b => (w.deallocExplicit i b).1
  | .drop i b => w.dropHandle i b

/-- Run a sequence of operations. -/
def World.run (w : World) (ops : List Op) : World :=
  ops.foldl World.step w

/-- The observable events of `HeapMutator::cast`, in the order the body
performs them. -/
inductive CastEvent where
  | lockAcquire : CastEvent
  | allocNew : CastEvent
  | lockRelease : CastEvent
  | moveValue : CastEvent
  | deallocOld (success : Bool) : CastEvent
deriving DecidableEq, Repr

/-- Result of `HeapMutator::cast::<U>`: the post-state of the old family's
world, the fresh family wrapping the new pointer, the layout the new
storage was allocated with, and the event trace. -/
structure CastResult where
  world : World
  newFam : Family
  newLayout : Layout
  trace : List CastEvent
deriving DecidableEq, Repr

/-- `HeapMutator::cast::<U>(self)` where `self` is the handle at index `i`:
(a) `self.heap.lock()`; (b) the new layout is
`Layout::from_size_align(max(size_of::<T>(), size_of::<U>()), align_of::<U>())`;
(c) `heap.alloc(new_layout)` under the lock; (d) `drop(heap)` releases the
lock; (e) the old bytes are read as `U` and written to the new storage;
(f) `self.dealloc()` frees the old allocation; the returned mutator is
`HeapMutator::new_unchecked(new_ptr, heap_ref)`. -/
def World.cast (w : World) (i : Nat) (sizeU alignU newAddr : Nat) :
    CastResult :=
  let newLayout : Layout := ⟨max w.layoutT.size sizeU, alignU⟩
  let w1 : World := { w with heap := w.heap.allocRecord newAddr newLayout }
  let p := w1.deallocExplicit i true
  { world := p.1
    newFam := Family.newUnchecked newAddr
    newLayout := newLayout
    trace := [.lockAcquire, .allocNew, .lockRelease, .moveValue,
              .deallocOld p.2] }

/-- `HeapMutator::cast_unchecked::<U>(mut self)` for the handle at index
`i`: sets `self.deallocated = true` (so the consumed mutator's `Drop`
frees nothing), builds the new mutator with
`HeapMutator::new_unchecked(self.ptr.cast::<U>(), self.heap)` — the same
address under a fresh counter — and then `self` is dropped. -/
def World.castUnchecked (w : World) (i : Nat) : World × Family :=
  let w1 : World :=
    { w with fam := { w.fam with handles := w.fam.handles.set i ⟨true⟩ } }
  (w1.dropHandle i true, Family.newUnchecked w.fam.addr)

/-! ### Helper lemmas about the handle state machine -/

/-- All live handles of the family have a clear has-been-freed flag. -/
def FlagsClear (w : World) : Prop :=
  ∀ h ∈ w.fam.handles, h.deallocated = false

/-- The shared strong count agrees with the number of live handles. -/
def StrongMatches (w : World) : Prop :=
  w.fam.strong = w.fam.handles.length

/-- Invariant behind the no-double-free property: consistent bookkeeping
and at most one physical deallocation, none while a handle is live. -/
def Inv1 (w : World) : Prop :=
  StrongMatches w ∧ FlagsClear w ∧ w.physDeallocs ≤ 1 ∧
  (w.fam.handles ≠ [] → w.physDeallocs = 0)

/-- Invariant behind the destructor-once property (healthy locks): while a
handle lives, nothing has been destructed and the record is in the table;
once the last handle is gone, the value was destructed exactly once and
the record removed. -/
def Inv2 (w : World) (addr : Nat) (l : Layout) : Prop :=
  StrongMatches w ∧ FlagsClear w ∧ w.fam.addr = addr ∧ w.layoutT = l ∧
  ((w.fam.handles ≠ [] ∧ w.destructorRuns = 0 ∧ w.physDeallocs = 0 ∧
      w.heap = ⟨[(addr, l)]⟩) ∨
   (w.fam.handles = [] ∧ w.destructorRuns = 1 ∧ w.physDeallocs = 1 ∧
      w.heap = ⟨[]⟩))

theorem deallocInternal_of_get_none (w : World) (i : Nat) (b : Bool)
    (h : w.fam.handles[i]? = none) :
    w.deallocInternal i b = (w, false) := by
  simp [World.deallocInternal, h]

theorem deallocInternal_of_flag (w : World) (i : Nat) (b : Bool) (hd : Handle)
    (hg : w.fam.handles[i]? = some hd) (hf : hd.deallocated = true) :
    w.deallocInternal i b = (w, false) := by
  simp [World.deallocInternal, hg, hf]

theorem deallocInternal_of_shared (w : World) (i : Nat) (b : Bool)
    (h : 2 ≤ w.fam.strong) :
    w.deallocInternal i b = (w, false) := by
  unfold World.deallocInternal
  cases hg : w.fam.handles[i]? with
  | none => rfl
  | some hd =>
    by_cases hf : hd.deallocated
    · simp [hf]
    · have hc : ¬ (w.canDealloc = true) := by
        simp [World.canDealloc, World.refCount]
        omega
      simp [hf, hc]

theorem deallocInternal_lock_fail (w : World) (i : Nat) (hd : Handle)
    (hg : w.fam.handles[i]? = some hd) (hf : hd.deallocated = false)
    (hs : w.fam.strong < 2) :
    w.deallocInternal i false = (w, false) := by
  have hc : w.canDealloc = true := by
    simp [World.canDealloc, World.refCount]
    omega
  simp [World.deallocInternal, hg, hf, hc]

theorem deallocInternal_success (w : World) (i : Nat) (hd : Handle)
    (hg : w.fam.handles[i]? = some hd) (hf : hd.deallocated = false)
    (hs : w.fam.strong < 2) :
    w.deallocInternal i true =
      ({ w with
          heap := w.heap.dealloc w.fam.addr w.layoutT
          fam := { w.fam with handles := w.fam.handles.set i ⟨true⟩ }
          destructorRuns := w.destructorRuns + 1
          physDeallocs := w.physDeallocs + 1 }, true) := by
  have hc : w.canDealloc = true := by
    simp [World.canDealloc, World.refCount]
    omega
  simp [World.deallocInternal, hg, hf, hc]

theorem deallocInternal_fam_counts (w : World) (i : Nat) (b : Bool) :
    (w.deallocInternal i b).1.fam.handles.length = w.fam.handles.length ∧
    (w.deallocInternal i b).1.fam.strong = w.fam.strong ∧
    (w.deallocInternal i b).1.fam.addr = w.fam.addr ∧
    (w.deallocInternal i b).1.layoutT = w.layoutT := by
  unfold World.deallocInternal
  cases hg : w.fam.handles[i]? with
  | none => simp
  | some hd =>
    by_cases h1 : hd.deallocated
    · simp [h1]
    · by_cases h2 : w.canDealloc = true
      · cases b <;> simp [h1, h2, List.length_set]
      · simp [h1, h2]

theorem dropHandle_of_ge (w : World) (i : Nat) (b : Bool)
    (hi : w.fam.handles.length ≤ i) :
    w.dropHandle i b = w := by
  have hg : w.fam.handles[i]? = none := List.getElem?_eq_none hi
  unfold World.dropHandle
  rw [deallocInternal_of_get_none w i b hg]
  simp
  omega

theorem dropHandle_counts (w : World) (i : Nat) (b : Bool)
    (hi : i < w.fam.handles.length) :
    (w.dropHandle i b).fam.strong = w.fam.strong - 1 ∧
    (w.dropHandle i b).fam.handles.length = w.fam.handles.length - 1 := by
  have h := deallocInternal_fam_counts w i b
  unfold World.dropHandle
  rw [if_pos (by omega : i < (w.deallocInternal i b).1.fam.handles.length)]
  refine ⟨by simp [h.2.1], ?_⟩
  simp only [List.length_eraseIdx]
  rw [if_pos (by omega)]
  omega

theorem mem_of_getElemQ {α : Type} (l : List α) (i : Nat) (a : α)
    (hg : l[i]? = some a) : a ∈ l := by
  obtain ⟨hi, he⟩ := List.getElem?_eq_some.mp hg
  exact he ▸ List.getElem_mem hi

theorem lt_of_getElemQ {α : Type} (l : List α) (i : Nat) (a : α)
    (hg : l[i]? = some a) : i < l.length :=
  (List.getElem?_eq_some.mp hg).1

/-- Complete description of a drop of a live handle when the family's
bookkeeping is consistent: with other clones alive the drop only removes
the handle; as the last handle it either leaks (poisoned lock) or runs the
destructor and frees the record. -/
theorem dropHandle_spec (w : World) (i : Nat) (b : Bool)
    (hSM : StrongMatches w) (hFC : FlagsClear w)
    (hi : i < w.fam.handles.length) :
    (2 ≤ w.fam.handles.length ∧
      w.dropHandle i b =
        { w with fam := { w.fam with
            strong := w.fam.strong - 1
            handles := w.fam.handles.eraseIdx i } }) ∨
    (w.fam.handles.length = 1 ∧ i = 0 ∧ b = false ∧
      w.dropHandle i b =
        { w with fam := { w.fam with strong := 0, handles := [] } }) ∨
    (w.fam.handles.length = 1 ∧ i = 0 ∧ b = true ∧
      w.dropHandle i b =
        { w with
            heap := w.heap.dealloc w.fam.addr w.layoutT
            fam := { w.fam with strong := 0, handles := [] }
            destructorRuns := w.destructorRuns + 1
            physDeallocs := w.physDeallocs + 1 }) := by
  have hSM1 : w.fam.strong = w.fam.handles.length := hSM
  by_cases h2 : 2 ≤ w.fam.handles.length
  · left
    refine ⟨h2, ?_⟩
    have hsh : 2 ≤ w.fam.strong := by omega
    unfold World.dropHandle
    rw [deallocInternal_of_shared w i b hsh]
    simp [hi]
  · right
    have hl1 : w.fam.handles.length = 1 := by omega
    have hi0 : i = 0 := by omega
    subst hi0
    obtain ⟨hd, hhd⟩ := List.length_eq_one.mp hl1
    have hg : w.fam.handles[0]? = some hd := by rw [hhd]; rfl
    have hflag : hd.deallocated = false := hFC hd (by rw [hhd]; simp)
    have hst : w.fam.strong = 1 := by omega
    cases b with
    | false =>
      left
      refine ⟨hl1, rfl, rfl, ?_⟩
      unfold World.dropHandle
      rw [deallocInternal_lock_fail w 0 hd hg hflag (by omega)]
      simp [hhd, hst]
    | true =>
      right
      refine ⟨hl1, rfl, rfl, ?_⟩
      unfold World.dropHandle
      rw [deallocInternal_success w 0 hd hg hflag (by omega)]
      simp [hhd, hst]

/-- `HeapMutator::dealloc(self)` changes the state exactly like a plain
drop of the same handle: the in-body `dealloc_internal` and the one run by
the consuming `Drop` are jointly idempotent thanks to the flag. -/
theorem deallocExplicit_eq_dropHandle (w : World) (i : Nat) (b : Bool) :
    (w.deallocExplicit i b).1 = w.dropHandle i b := by
  cases hg : w.fam.handles[i]? with
  | none =>
    simp [World.deallocExplicit, deallocInternal_of_get_none w i b hg]
  | some hd =>
    by_cases hf : hd.deallocated = true
    · simp [World.deallocExplicit, deallocInternal_of_flag w i b hd hg hf]
    · replace hf : hd.deallocated = false := by simpa using hf
      by_cases hc : 2 ≤ w.fam.strong
      · simp [World.deallocExplicit, deallocInternal_of_shared w i b hc]
      · cases b with
        | false =>
          simp [World.deallocExplicit,
            deallocInternal_lock_fail w i hd hg hf (by omega)]
        | true =>
          have hi : i < w.fam.handles.length := lt_of_getElemQ _ i hd hg
          have hs := deallocInternal_success w i hd hg hf (by omega)
          have hg1 : ((w.deallocInternal i true).1.fam.handles)[i]?
              = some ⟨true⟩ := by
            rw [hs]
            simp [List.getElem?_set, hi]
          have hflag1 := deallocInternal_of_flag
            (w.deallocInternal i true).1 i true ⟨true⟩ hg1 rfl
          show ((w.deallocInternal i true).1.dropHandle i true)
              = w.dropHandle i true
          unfold World.dropHandle
          rw [hflag1]

theorem flagsClear_eraseIdx (w : World) (i : Nat) (hFC : FlagsClear w) :
    ∀ h ∈ w.fam.handles.eraseIdx i, h.deallocated = false :=
  fun h hm => hFC h ((List.eraseIdx_sublist w.fam.handles i).subset hm)

theorem inv1_cloneHandle (w : World) (i : Nat) (h : Inv1 w) :
    Inv1 (w.cloneHandle i) := by
  obtain ⟨hSM, hFC, hP1, hP0⟩ := h
  have hSM1 : w.fam.strong = w.fam.handles.length := hSM
  by_cases hi : i < w.fam.handles.length
  · have hne : w.fam.handles ≠ [] := by
      intro he
      rw [he] at hi
      simp at hi
    refine ⟨?_, ?_, ?_, ?_⟩
    · show (w.cloneHandle i).fam.strong = (w.cloneHandle i).fam.handles.length
      simp [World.cloneHandle, hi]
      omega
    · intro h hm
      simp [World.cloneHandle, hi] at hm
      rcases hm with hm1 | hm1
      · exact hFC h hm1
      · rw [hm1]
    · simpa [World.cloneHandle, hi] using hP1
    · intro _
      simpa [World.cloneHandle, hi] using hP0 hne
  · simpa [World.cloneHandle, hi] using ⟨hSM, hFC, hP1, hP0⟩

theorem inv1_dropHandle (w : World) (i : Nat) (b : Bool) (h : Inv1 w) :
    Inv1 (w.dropHandle i b) := by
  obtain ⟨hSM, hFC, hP1, hP0⟩ := h
  have hSM1 : w.fam.strong = w.fam.handles.length := hSM
  by_cases hi : i < w.fam.handles.length
  · have hne : w.fam.handles ≠ [] := by
      intro he
      rw [he] at hi
      simp at hi
    have hp0 : w.physDeallocs = 0 := hP0 hne
    rcases dropHandle_spec w i b hSM hFC hi with
      ⟨h2, he⟩ | ⟨h1, hi0, hb, he⟩ | ⟨h1, hi0, hb, he⟩ <;> rw [he]
    · refine ⟨?_, ?_, ?_, ?_⟩
      · show w.fam.strong - 1 = (w.fam.handles.eraseIdx i).length
        rw [List.length_eraseIdx]
        simp [hi]
        omega
      · exact fun h hm => flagsClear_eraseIdx w i hFC h hm
      · exact hP1
      · intro _
        exact hp0
    · exact ⟨rfl, by intro h hm; simp at hm, by simpa using hP1, by simp⟩
    · exact ⟨rfl, by intro h hm; simp at hm, by simp [hp0], by simp⟩
  · rw [dropHandle_of_ge w i b (by omega)]
    exact ⟨hSM, hFC, hP1, hP0⟩

theorem step_inv1 (w : World) (op : Op) (h : Inv1 w) : Inv1 (w.step op) := by
  cases op with
  | clone i => exact inv1_cloneHandle w i h
  | drop i b => exact inv1_dropHandle w i b h
  | dealloc i b =>
    show Inv1 (w.deallocExplicit i b).1
    rw [deallocExplicit_eq_dropHandle]
    exact inv1_dropHandle w i b h

theorem run_inv1 (w : World) (ops : List Op) (h : Inv1 w) :
    Inv1 (w.run ops) := by
  induction ops generalizing w with
  | nil => exact h
  | cons op ops ih =>
    show Inv1 ((op :: ops).foldl World.step w)
    rw [List.foldl_cons]
    exact ih _ (step_inv1 w op h)

theorem init_inv1 (addr : Nat) (l : Layout) : Inv1 (World.init addr l) := by
  refine ⟨rfl, ?_, by simp [World.init], by simp [World.init]⟩
  intro h hm
  simp [World.init] at hm
  rw [hm]

theorem heap_dealloc_single (addr : Nat) (l lay : Layout) :
    Heap.dealloc ⟨[(addr, l)]⟩ addr lay = ⟨[]⟩ := by
  simp [Heap.dealloc]

theorem inv2_cloneHandle (w : World) (i : Nat) (addr : Nat) (l : Layout)
    (h : Inv2 w addr l) : Inv2 (w.cloneHandle i) addr l := by
  obtain ⟨hSM, hFC, haddr, hlay, hcase⟩ := h
  have hSM1 : w.fam.strong = w.fam.handles.length := hSM
  by_cases hi : i < w.fam.handles.length
  · have hne : w.fam.handles ≠ [] := by
      intro he
      rw [he] at hi
      simp at hi
    have hstep : w.cloneHandle i =
        { w with fam := { w.fam with
            strong := w.fam.strong + 1
            handles := w.fam.handles ++ [⟨false⟩] } } := by
      simp [World.cloneHandle, hi]
    rw [hstep]
    refine ⟨?_, ?_, haddr, hlay, ?_⟩
    · show w.fam.strong + 1
        = (w.fam.handles ++ [(⟨false⟩ : Handle)]).length
      simp
      omega
    · intro h hm
      simp at hm
      rcases hm with hm1 | hm1
      · exact hFC h hm1
      · rw [hm1]
    · rcases hcase with ⟨_, hr, hp, hh⟩ | ⟨he, _⟩
      · exact Or.inl ⟨by simp, hr, hp, hh⟩
      · exact absurd he hne
  · simpa [World.cloneHandle, hi] using ⟨hSM, hFC, haddr, hlay, hcase⟩

theorem inv2_dropHandle (w : World) (i : Nat) (addr : Nat) (l : Layout)
    (h : Inv2 w addr l) : Inv2 (w.dropHandle i true) addr l := by
  obtain ⟨hSM, hFC, haddr, hlay, hcase⟩ := h
  have hSM1 : w.fam.strong = w.fam.handles.length := hSM
  by_cases hi : i < w.fam.handles.length
  · have hne : w.fam.handles ≠ [] := by
      intro he
      rw [he] at hi
      simp at hi
    rcases hcase with ⟨_, hr, hp, hh⟩ | ⟨he, _⟩
    · rcases dropHandle_spec w i true hSM hFC hi with
        ⟨h2, he⟩ | ⟨h1, hi0, hb, he⟩ | ⟨h1, hi0, hb, he⟩
      · rw [he]
        refine ⟨?_, ?_, haddr, hlay, Or.inl ⟨?_, hr, hp, hh⟩⟩
        · show w.fam.strong - 1 = (w.fam.handles.eraseIdx i).length
          rw [List.length_eraseIdx]
          simp [hi]
          omega
        · exact fun h hm => flagsClear_eraseIdx w i hFC h hm
        · show w.fam.handles.eraseIdx i ≠ []
          intro hnil
          have := congrArg List.length hnil
          rw [List.length_eraseIdx] at this
          simp [hi] at this
          omega
      · exact absurd hb (by simp)
      · rw [he]
        refine ⟨rfl, ?_, haddr, hlay, Or.inr ⟨rfl, ?_, ?_, ?_⟩⟩
        · intro h hm
          simp at hm
        · show w.destructorRuns + 1 = 1
          omega
        · show w.physDeallocs + 1 = 1
          omega
        · show w.heap.dealloc w.fam.addr w.layoutT = ⟨[]⟩
          rw [hh, haddr, hlay]
          exact heap_dealloc_single addr l l
    · exact absurd he hne
  · rw [dropHandle_of_ge w i true (by omega)]
    exact ⟨hSM, hFC, haddr, hlay, hcase⟩

theorem step_inv2 (w : World) (op : Op) (addr : Nat) (l : Layout)
    (hlock : op.lockOk = true) (h : Inv2 w addr l) :
    Inv2 (w.step op) addr l := by
  cases op with
  | clone i => exact inv2_cloneHandle w i addr l h
  | drop i b =>
    have hb : b = true := hlock
    subst hb
    exact inv2_dropHandle w i addr l h
  | dealloc i b =>
    have hb : b = true := hlock
    subst hb
    show Inv2 (w.deallocExplicit i true).1 addr l
    rw [deallocExplicit_eq_dropHandle]
    exact inv2_dropHandle w i addr l h

theorem run_inv2 (w : World) (ops : List Op) (addr : Nat) (l : Layout)
    (hlock : ∀ op ∈ ops, op.lockOk = true) (h : Inv2 w addr l) :
    Inv2 (w.run ops) addr l := by
  induction ops generalizing w with
  | nil => exact h
  | cons op ops ih =>
    show Inv2 ((op :: ops).foldl World.step w) addr l
    rw [List.foldl_cons]
    exact ih _ (fun o ho => hlock o (by simp [ho]))
      (step_inv2 w op addr l (hlock op (by simp)) h)

theorem init_inv2 (addr : Nat) (l : Layout) :
    Inv2 (World.init addr l) addr l := by
  refine ⟨rfl, ?_, rfl, rfl, Or.inl ⟨by simp [World.init], rfl, rfl, rfl⟩⟩
  intro h hm
  simp [World.init] at hm
  rw [hm]

theorem run_drops (K : Nat) : ∀ (w : World), StrongMatches w →
    K ≤ w.fam.handles.length →
    (w.run (List.replicate K (Op.drop 0 true))).fam.strong
      = w.fam.strong - K := by
  induction K with
  | zero =>
    intro w _ _
    simp [World.run]
  | succ K ih =>
    intro w hSM hK
    have hSM1 : w.fam.strong = w.fam.handles.length := hSM
    have hi : 0 < w.fam.handles.length := by omega
    have hc := dropHandle_counts w 0 true hi
    have hSM2 : StrongMatches (w.dropHandle 0 true) := by
      show (w.dropHandle 0 true).fam.strong
        = (w.dropHandle 0 true).fam.handles.length
      omega
    have hK2 : K ≤ (w.dropHandle 0 true).fam.handles.length := by omega
    have step1 : w.run (List.replicate (K + 1) (Op.drop 0 true))
        = (w.dropHandle 0 true).run (List.replicate K (Op.drop 0 true)) := by
      rw [List.replicate_succ]
      show ((Op.drop 0 true) :: List.replicate K (Op.drop 0 true)).foldl
          World.step w = _
      rw [List.foldl_cons]
      rfl
    rw [step1, ih _ hSM2 hK2]
    omega

/-! ### The claims -/

/-- Claim C1: for every handle, performing free twice — an explicit
`dealloc()` followed by the implicit drop, or any second free attempt on
the same handle — physically deallocates the backing storage at most once:
over any operation sequence the physical-deallocation count stays ≤ 1, a
successful free leaves the has-been-freed flag set on the handle, and any
free of a flagged handle is a no-op that returns `false`. -/
theorem C1_no_double_free :
    (∀ (addr : Nat) (l : Layout) (ops : List Op),
        ((World.init addr l).run ops).physDeallocs ≤ 1) ∧
    (∀ (w : World) (i : Nat) (b : Bool),
        (w.deallocInternal i b).2 = true →
        (w.deallocInternal i b).1.fam.handles[i]? = some ⟨true⟩) ∧
    (∀ (w : World) (i : Nat) (b : Bool) (hd : Handle),
        w.fam.handles[i]? = some hd → hd.deallocated = true →
        w.deallocInternal i b = (w, false)) := by
  refine ⟨?_, ?_, ?_⟩
  · intro addr l ops
    exact (run_inv1 _ ops (init_inv1 addr l)).2.2.1
  · intro w i b hres
    cases hg : w.fam.handles[i]? with
    | none =>
      rw [deallocInternal_of_get_none w i b hg] at hres
      simp at hres
    | some hd =>
      by_cases hf : hd.deallocated = true
      · rw [deallocInternal_of_flag w i b hd hg hf] at hres
        simp at hres
      · replace hf : hd.deallocated = false := by simpa using hf
        by_cases hc : 2 ≤ w.fam.strong
        · rw [deallocInternal_of_shared w i b hc] at hres
          simp at hres
        · cases b with
          | false =>
            rw [deallocInternal_lock_fail w i hd hg hf (by omega)] at hres
            simp at hres
          | true =>
            rw [deallocInternal_success w i hd hg hf (by omega)]
            have hi := lt_of_getElemQ _ i hd hg
            simp [List.getElem?_set, hi]
  · intro w i b hd hg hf
    exact deallocInternal_of_flag w i b hd hg hf

theorem C1_no_double_free_witness :
    ((World.init 0 ⟨4, 4⟩).run
        [Op.clone 0, Op.dealloc 0 true, Op.drop 0 true]).physDeallocs ≤ 1 ∧
    (((World.init 0 ⟨4, 4⟩).deallocInternal 0 true).1.deallocInternal 0 true
      = (((World.init 0 ⟨4, 4⟩).deallocInternal 0 true).1, false)) :=
  ⟨C1_no_double_free.1 0 ⟨4, 4⟩ [Op.clone 0, Op.dealloc 0 true, Op.drop 0 true],
   C1_no_double_free.2.2 ((World.init 0 ⟨4, 4⟩).deallocInternal 0 true).1
     0 true ⟨true⟩ (by decide) rfl⟩

/-- Claim C2: for one allocation with any number of clones, and healthy
locks, the value's destructor runs exactly once across the allocation's
whole lifetime — namely by the free that sees the last handle (reference
count 1 → 0); a free performed while other clones are live (count ≥ 2)
runs no destructor and returns `false`. -/
theorem C2_destructor_once :
    (∀ (addr : Nat) (l : Layout) (ops : List Op),
        (∀ op ∈ ops, op.lockOk = true) →
        ((World.init addr l).run ops).fam.handles = [] →
        ((World.init addr l).run ops).destructorRuns = 1) ∧
    (∀ (w : World) (i : Nat) (b : Bool), 2 ≤ w.refCount →
        (w.deallocInternal i b).1.destructorRuns = w.destructorRuns ∧
        (w.deallocInternal i b).2 = false) := by
  refine ⟨?_, ?_⟩
  · intro addr l ops hlock hdead
    rcases (run_inv2 _ ops addr l hlock (init_inv2 addr l)).2.2.2.2 with
      ⟨hne, _⟩ | ⟨_, hr, _⟩
    · exact absurd hdead hne
    · exact hr
  · intro w i b h2
    rw [deallocInternal_of_shared w i b h2]
    exact ⟨rfl, rfl⟩

theorem C2_destructor_once_witness :
    ((World.init 5 ⟨8, 8⟩).run
        [Op.clone 0, Op.dealloc 0 true, Op.drop 0 true]).destructorRuns = 1 ∧
    (((World.init 5 ⟨8, 8⟩).cloneHandle 0).deallocInternal 0 true).2 = false :=
  ⟨C2_destructor_once.1 5 ⟨8, 8⟩
      [Op.clone 0, Op.dealloc 0 true, Op.drop 0 true] (by decide) (by decide),
   (C2_destructor_once.2 ((World.init 5 ⟨8, 8⟩).cloneHandle 0) 0 true
      (by decide)).2⟩

/-- Claim C3: `get_mut()` hands back a mutable reference exactly when
`ref_count() = 1`; with two or more live clones it fails loudly (`none`,
i.e. the `expect` panic) instead of returning an aliasing reference, and
the shared pointer and table state are unchanged either way. -/
theorem C3_get_mut_exclusive (w : World) :
    ((w.getMut).2.isSome = true ↔ w.refCount = 1) ∧
    (w.getMut).1 = w ∧
    (2 ≤ w.refCount → (w.getMut).2 = none) := by
  refine ⟨?_, ?_, ?_⟩
  · by_cases h : w.fam.strong = 1 <;>
      simp [World.getMut, World.refCount, h]
  · by_cases h : w.fam.strong = 1 <;> simp [World.getMut, h]
  · intro h2
    have hno : ¬ w.fam.strong = 1 := by
      have h3 : 2 ≤ w.fam.strong := h2
      omega
    simp [World.getMut, hno]

theorem C3_get_mut_exclusive_witness :
    (((World.init 0 ⟨1, 1⟩).getMut).2.isSome = true ↔
        (World.init 0 ⟨1, 1⟩).refCount = 1) ∧
    (((World.init 0 ⟨1, 1⟩).cloneHandle 0).getMut).2 = none :=
  ⟨(C3_get_mut_exclusive (World.init 0 ⟨1, 1⟩)).1,
   (C3_get_mut_exclusive ((World.init 0 ⟨1, 1⟩).cloneHandle 0)).2.2
      (by decide)⟩

/-- Claim C4: `ref_count()` always equals the number of currently-live
clones (including the original), is ≥ 1 while any handle lives, each
`clone()` adds exactly 1, and dropping K clones subtracts exactly K. -/
theorem C4_ref_count_correct :
    (∀ (addr : Nat) (l : Layout) (ops : List Op),
        ((World.init addr l).run ops).refCount
          = ((World.init addr l).run ops).fam.handles.length) ∧
    (∀ (addr : Nat) (l : Layout) (ops : List Op),
        ((World.init addr l).run ops).fam.handles ≠ [] →
        1 ≤ ((World.init addr l).run ops).refCount) ∧
    (∀ (w : World) (i : Nat), i < w.fam.handles.length →
        (w.cloneHandle i).refCount = w.refCount + 1) ∧
    (∀ (w : World) (K : Nat), StrongMatches w →
        K ≤ w.fam.handles.length →
        (w.run (List.replicate K (Op.drop 0 true))).refCount
          = w.refCount - K) := by
  have hrun : ∀ (addr : Nat) (l : Layout) (ops : List Op),
      ((World.init addr l).run ops).refCount
        = ((World.init addr l).run ops).fam.handles.length :=
    fun addr l ops => (run_inv1 _ ops (init_inv1 addr l)).1
  refine ⟨hrun, ?_, ?_, ?_⟩
  · intro addr l ops hne
    have h : ((World.init addr l).run ops).fam.strong
        = ((World.init addr l).run ops).fam.handles.length := hrun addr l ops
    have h0 : ((World.init addr l).run ops).fam.handles.length ≠ 0 := by
      simpa [List.length_eq_zero] using hne
    show 1 ≤ ((World.init addr l).run ops).fam.strong
    omega
  · intro w i hi
    simp [World.cloneHandle, hi, World.refCount]
  · intro w K hSM hK
    exact run_drops K w hSM hK

theorem C4_ref_count_correct_witness :
    ((World.init 1 ⟨2, 2⟩).run [Op.clone 0]).refCount
      = ((World.init 1 ⟨2, 2⟩).run [Op.clone 0]).fam.handles.length ∧
    1 ≤ ((World.init 1 ⟨2, 2⟩).run [Op.clone 0]).refCount ∧
    ((World.init 1 ⟨2, 2⟩).cloneHandle 0).refCount
      = (World.init 1 ⟨2, 2⟩).refCount + 1 ∧
    (((World.init 1 ⟨2, 2⟩).cloneHandle 0).run
        (List.replicate 2 (Op.drop 0 true))).refCount
      = ((World.init 1 ⟨2, 2⟩).cloneHandle 0).refCount - 2 :=
  ⟨C4_ref_count_correct.1 1 ⟨2, 2⟩ [Op.clone 0],
   C4_ref_count_correct.2.1 1 ⟨2, 2⟩ [Op.clone 0] (by decide),
   C4_ref_count_correct.2.2.1 (World.init 1 ⟨2, 2⟩) 0 (by decide),
   C4_ref_count_correct.2.2.2 ((World.init 1 ⟨2, 2⟩).cloneHandle 0) 2
     (by exact rfl) (by decide)⟩

/-- Claim C7: on the free path, a poisoned table lock makes the operation
log and return `false` without running the destructor and without touching
the table: the allocation's record stays, the state is unchanged. -/
theorem C7_poisoned_lock_no_panic (w : World) (i : Nat) (hd : Handle)
    (hg : w.fam.handles[i]? = some hd) (hf : hd.deallocated = false)
    (hs : w.refCount < 2) :
    w.deallocInternal i false = (w, false) ∧
    (w.deallocInternal i false).1.heap = w.heap ∧
    (w.deallocInternal i false).1.destructorRuns = w.destructorRuns ∧
    (w.deallocInternal i false).2 = false := by
  have he := deallocInternal_lock_fail w i hd hg hf hs
  exact ⟨he, by rw [he], by rw [he], by rw [he]⟩

theorem C7_poisoned_lock_no_panic_witness :
    (World.init 3 ⟨4, 4⟩).deallocInternal 0 false
      = (World.init 3 ⟨4, 4⟩, false) :=
  (C7_poisoned_lock_no_panic (World.init 3 ⟨4, 4⟩) 0 ⟨false⟩ rfl rfl
    (by decide)).1

/-- Claim C9: `can_dealloc()` returns true iff `ref_count() < 2`, which
for a live handle (count ≥ 1) is exactly "this handle is the sole
remaining reference". -/
theorem C9_can_dealloc_iff (w : World) :
    (w.canDealloc = true ↔ w.refCount < 2) ∧
    (1 ≤ w.refCount → (w.canDealloc = true ↔ w.refCount = 1)) := by
  constructor
  · simp [World.canDealloc]
  · intro h1
    simp [World.canDealloc]
    omega

theorem C9_can_dealloc_iff_witness :
    ((World.init 0 ⟨1, 1⟩).canDealloc = true ↔
      (World.init 0 ⟨1, 1⟩).refCount = 1) :=
  (C9_can_dealloc_iff (World.init 0 ⟨1, 1⟩)).2 (by decide)

/-- Claim C10: both casts wrap the resulting pointer in a freshly created
counter (`Arc::new`), so the returned handle's `ref_count()` is exactly 1
whatever the old family's count, surviving clones are not counted, and for
`cast_unchecked` the new family addresses the same storage. -/
theorem C10_cast_fresh_refcount (w : World) (i sizeU alignU newAddr : Nat) :
    (w.cast i sizeU alignU newAddr).newFam.strong = 1 ∧
    (w.cast i sizeU alignU newAddr).newFam = Family.newUnchecked newAddr ∧
    (w.castUnchecked i).2.strong = 1 ∧
    (w.castUnchecked i).2.addr = w.fam.addr :=
  ⟨rfl, rfl, rfl, rfl⟩

/-- Claim C5 fails as stated: with a clone of the handle still live, the
cast's final `self.dealloc()` is a no-op (the old family's count is 2), so
the old allocation is **not** freed by the cast: after casting a 4-byte
value to an 8-byte layout the table holds both records and `size()` is 12,
not 8, and no destructor ran. -/
theorem C5_cast_counterexample :
    (((World.init 0 ⟨4, 4⟩).run [Op.clone 0]).cast 0 8 8 1).world.heap.size
        = 12 ∧
    (((World.init 0 ⟨4, 4⟩).run [Op.clone 0]).cast 0 8 8 1).newLayout.size
        = 8 ∧
    (((World.init 0 ⟨4, 4⟩).run [Op.clone 0]).cast 0 8 8 1).world.heap.count
        = 2 ∧
    (((World.init 0 ⟨4, 4⟩).run [Op.clone 0]).cast 0 8 8 1).trace
        = [.lockAcquire, .allocNew, .lockRelease, .moveValue,
           .deallocOld false] ∧
    (((World.init 0 ⟨4, 4⟩).run [Op.clone 0]).cast 0 8 8 1).world.destructorRuns
        = 0 := by
  decide

/-- Claim C5 (amended): when the consumed handle is the sole live
reference, `cast::<U>` performs, in this order: acquire the lock, allocate
storage with layout `(max(size_of::<T>, size_of::<U>), align_of::<U>)`
under the lock, release the lock, move the reinterpreted value, free the
old allocation (running the old value's destructor), so the table
afterwards holds only the new record and `size()` reflects only the new
allocation; with clones live the final free is deferred instead. -/
theorem C5_cast_amended (addr newAddr sizeU alignU dr pd : Nat)
    (lT : Layout) (hne : newAddr ≠ addr) :
    ((soleWorld addr lT dr pd).cast 0 sizeU alignU newAddr).trace
        = [.lockAcquire, .allocNew, .lockRelease, .moveValue,
           .deallocOld true] ∧
    ((soleWorld addr lT dr pd).cast 0 sizeU alignU newAddr).newLayout
        = ⟨max lT.size sizeU, alignU⟩ ∧
    ((soleWorld addr lT dr pd).cast 0 sizeU alignU newAddr).world.heap
        = ⟨[(newAddr, ⟨max lT.size sizeU, alignU⟩)]⟩ ∧
    ((soleWorld addr lT dr pd).cast 0 sizeU alignU newAddr).world.heap.size
        = max lT.size sizeU ∧
    ((soleWorld addr lT dr pd).cast 0 sizeU alignU newAddr).world.destructorRuns
        = dr + 1 ∧
    ((soleWorld addr lT dr pd).cast 0 sizeU alignU newAddr).newFam
        = Family.newUnchecked newAddr := by
  have hall : ((soleWorld addr lT dr pd).cast 0 sizeU alignU newAddr).world
        = { heap := ⟨[(newAddr, ⟨max lT.size sizeU, alignU⟩)]⟩
            fam := ⟨0, [], addr⟩
            layoutT := lT
            destructorRuns := dr + 1
            physDeallocs := pd + 1 } ∧
      ((soleWorld addr lT dr pd).cast 0 sizeU alignU newAddr).trace
        = [.lockAcquire, .allocNew, .lockRelease, .moveValue,
           .deallocOld true] := by
    constructor <;>
      simp [soleWorld, World.cast, World.deallocExplicit, World.dropHandle,
        World.deallocInternal, World.canDealloc, World.refCount,
        Heap.allocRecord, Heap.dealloc, hne]
  refine ⟨hall.2, rfl, ?_, ?_, ?_, rfl⟩
  · rw [hall.1]
  · rw [hall.1]
    simp [Heap.size]
  · rw [hall.1]

theorem C5_cast_amended_witness :
    ((soleWorld 0 ⟨4, 4⟩ 0 0).cast 0 8 8 1).world.heap
        = ⟨[(1, ⟨max (Layout.size ⟨4, 4⟩) 8, 8⟩)]⟩ ∧
    ((soleWorld 0 ⟨4, 4⟩ 0 0).cast 0 8 8 1).world.heap.size
        = max (Layout.size ⟨4, 4⟩) 8 ∧
    ((soleWorld 0 ⟨4, 4⟩ 0 0).cast 0 8 8 1).world.destructorRuns = 0 + 1 :=
  have h := C5_cast_amended 0 1 8 8 0 0 ⟨4, 4⟩ (by decide)
  ⟨h.2.2.1, h.2.2.2.1, h.2.2.2.2.1⟩

theorem allocMany_ptrs (xs : List (Nat × Layout)) : ∀ (h : Heap),
    (h.allocMany xs).ptrs = h.ptrs ++ xs := by
  induction xs with
  | nil =>
    intro h
    simp [Heap.allocMany]
  | cons x xs ih =>
    intro h
    show ((x :: xs).foldl (fun acc y => acc.allocRecord y.1 y.2) h).ptrs = _
    rw [List.foldl_cons]
    have ih2 := ih (h.allocRecord x.1 x.2)
    simp only [Heap.allocMany] at ih2
    rw [ih2]
    simp [Heap.allocRecord]

/-- Claim C6: allocating values with layout sizes S₁..Sₙ into an empty
table makes `size()` return Σ Sᵢ and `count()` return N; freeing one of
them (its address occurring exactly once) removes exactly its record, so
`count()` drops by 1 and `size()` by that record's layout size. -/
theorem C6_accounting :
    (∀ (n : Nat) (xs : List (Nat × Layout)),
        ((Heap.new n).allocMany xs).size
            = (xs.map (fun x => x.2.size)).sum ∧
        ((Heap.new n).allocMany xs).count = xs.length) ∧
    (∀ (h : Heap) (ps1 ps2 : List (Nat × Layout)) (addr : Nat)
        (l lay : Layout),
        h.ptrs = ps1 ++ (addr, l) :: ps2 →
        (∀ q ∈ ps1, q.1 ≠ addr) →
        (∀ q ∈ ps2, q.1 ≠ addr) →
        (h.dealloc addr lay).count = h.count - 1 ∧
        (h.dealloc addr lay).size = h.size - l.size) := by
  constructor
  · intro n xs
    have hp : ((Heap.new n).allocMany xs).ptrs = xs := by
      rw [allocMany_ptrs]
      simp [Heap.new]
    exact ⟨by rw [Heap.size, hp], by rw [Heap.count, hp]⟩
  · intro h ps1 ps2 addr l lay hp h1 h2
    have e1 : ps1.filter (fun q => !decide (q.1 = addr)) = ps1 :=
      List.filter_eq_self.mpr (fun q hq => by simpa using h1 q hq)
    have e2 : ps2.filter (fun q => !decide (q.1 = addr)) = ps2 :=
      List.filter_eq_self.mpr (fun q hq => by simpa using h2 q hq)
    have hd : (h.dealloc addr lay).ptrs = ps1 ++ ps2 := by
      simp [Heap.dealloc, hp, List.filter_append]
      rw [e1, e2]
    constructor
    · rw [Heap.count, hd, Heap.count, hp]
      simp
    · rw [Heap.size, hd, Heap.size, hp]
      simp
      omega

theorem C6_accounting_witness :
    ((Heap.new 0).allocMany [(1, ⟨4, 4⟩), (2, ⟨8, 8⟩)]).size
        = ([(1, (⟨4, 4⟩ : Layout)), (2, ⟨8, 8⟩)].map
            (fun x => x.2.size)).sum ∧
    (Heap.dealloc ⟨[(1, ⟨4, 4⟩), (2, ⟨8, 8⟩)]⟩ 2 ⟨8, 8⟩).count
        = (⟨[(1, ⟨4, 4⟩), (2, ⟨8, 8⟩)]⟩ : Heap).count - 1 ∧
    (Heap.dealloc ⟨[(1, ⟨4, 4⟩), (2, ⟨8, 8⟩)]⟩ 2 ⟨8, 8⟩).size
        = (⟨[(1, ⟨4, 4⟩), (2, ⟨8, 8⟩)]⟩ : Heap).size
            - Layout.size ⟨8, 8⟩ :=
  ⟨(C6_accounting.1 0 [(1, ⟨4, 4⟩), (2, ⟨8, 8⟩)]).1,
   (C6_accounting.2 ⟨[(1, ⟨4, 4⟩), (2, ⟨8, 8⟩)]⟩ [(1, ⟨4, 4⟩)] [] 2
      ⟨8, 8⟩ ⟨8, 8⟩ rfl (by decide) (by decide)).1,
   (C6_accounting.2 ⟨[(1, ⟨4, 4⟩), (2, ⟨8, 8⟩)]⟩ [(1, ⟨4, 4⟩)] [] 2
      ⟨8, 8⟩ ⟨8, 8⟩ rfl (by decide) (by decide)).2⟩

/-- Claim C8: the table's zero-filling allocate variant returns storage
whose `layout.size()` bytes are all zero, and the arena facade's `alloc`
reserves zero-filled storage and only then writes the caller's value over
it, so newly reserved storage never exposes uninitialized bytes. -/
theorem C8_zeroed_alloc (h : Heap) (s : Store) (addr : Nat) (l : Layout)
    (junk valueBytes : List Nat) :
    ((h.allocZeroed s addr l junk).2.lookup addr
        = some (List.replicate l.size 0)) ∧
    (∀ bs, (h.allocZeroed s addr l junk).2.lookup addr = some bs →
        bs.length = l.size ∧ ∀ b ∈ bs, b = 0) ∧
    ((h.allocLib s addr l junk).2.lookup addr
        = some (List.replicate l.size 0)) ∧
    (Memory.alloc h s addr l junk valueBytes).2
        = ((h.allocLib s addr l junk).2.write addr valueBytes) := by
  have hz : (h.allocZeroed s addr l junk).2.lookup addr
      = some (List.replicate l.size 0) := by
    simp [Heap.allocZeroed, Heap.allocRaw, Store.writeBytesZero,
      Store.write, Store.lookup, List.lookup]
  refine ⟨hz, ?_, ?_, rfl⟩
  · intro bs hbs
    rw [hz] at hbs
    obtain rfl : bs = List.replicate l.size 0 := by simpa using hbs.symm
    exact ⟨by simp, fun b hb => List.eq_of_mem_replicate hb⟩
  · simp [Heap.allocLib, Heap.allocRaw, Store.writeBytesZero,
      Store.write, Store.lookup, List.lookup]

theorem C8_zeroed_alloc_witness :
    ((Heap.new 0).allocZeroed ⟨[]⟩ 0 ⟨4, 4⟩ [9, 9, 9, 9]).2.lookup 0
        = some (List.replicate 4 0) ∧
    (List.replicate 4 (0 : Nat)).length = Layout.size ⟨4, 4⟩ ∧
    ∀ b ∈ List.replicate 4 (0 : Nat), b = 0 :=
  have h1 := (C8_zeroed_alloc (Heap.new 0) ⟨[]⟩ 0 ⟨4, 4⟩ [9, 9, 9, 9]
    [1, 2, 3, 4]).1
  have h2 := (C8_zeroed_alloc (Heap.new 0) ⟨[]⟩ 0 ⟨4, 4⟩ [9, 9, 9, 9]
    [1, 2, 3, 4]).2.1 (List.replicate 4 0) h1
  ⟨h1, h2.1, h2.2⟩

end Halloc
